import Mathlib

/-!
# Verification of the lartpc_mlreco3d full-chain orchestration

Shallow embedding of the reconstruction-chain glue code:

* `mlreco/models/full_chain_5.py` — `FullChain.forward` (fragment semantic
  asserts, shower-group particle assembly, track endpoint/direction
  extraction) and `FullChainLoss` (loss-weight configuration and the
  four-term combination).
* `mlreco/models/cluster_edge_gnn.py` — `EdgeChannelLoss.forward`
  (per-replica loop, degenerate branches, union-find grouping for the
  clustering metrics).

External collaborators that live outside the provided sources
(`complete_graph`, `assign_clusters_UF`, the encoders, the learned
sub-networks, torch loss functions) are either modelled from the spec
(marked in their doc comments) or abstracted as parameters.

Index conventions follow the source: the input point cloud is ordered by
batch id, `counts` holds the number of points of each batch element
(`torch.unique(input[:,3], return_counts=True)`), and the vids and
voxel_inds arrays of the source translate between global point indices and
per-batch local indices.
-/

namespace MlReco

/-- Offset `counts[:b].sum()`: index of the first point of batch element `b`
when the point cloud is ordered by batch id. -/
def offsetOf (counts : List ℕ) (b : ℕ) : ℕ := ((counts.take b).map id).sum

/-- Batch id of global point index `i`, for a point cloud ordered by batch id
with `counts` points per batch element (the association encoded in the
source by `vids = np.concatenate([np.arange(n) for n in counts])`). -/
def batchOf : List ℕ → ℕ → ℕ
  | [], _ => 0
  | c :: cs, i => if i < c then 0 else batchOf cs (i - c) + 1

/-- Local id `vids[i]`: local (within-batch) index of global point index `i`. -/
def vid (counts : List ℕ) (i : ℕ) : ℕ := i - offsetOf counts (batchOf counts i)

/-- Global id `voxel_inds[v]` for batch `b`: global index of local index `v`
(`counts[:b].sum() + np.arange(counts[b])` in the source). -/
def voxelInd (counts : List ℕ) (b : ℕ) (v : ℕ) : ℕ := offsetOf counts b + v

theorem offsetOf_cons (c : ℕ) (cs : List ℕ) (b : ℕ) :
    offsetOf (c :: cs) (b + 1) = c + offsetOf cs b := by
  simp [offsetOf, List.take_succ_cons]

theorem offsetOf_le (counts : List ℕ) (i : ℕ) :
    offsetOf counts (batchOf counts i) ≤ i := by
  induction counts generalizing i with
  | nil => simp [offsetOf, batchOf]
  | cons c cs ih =>
      by_cases h : i < c
      · simp [batchOf, h, offsetOf]
      · have h' : c ≤ i := Nat.le_of_not_lt h
        have hi := ih (i - c)
        simp only [batchOf, h, if_false]
        rw [offsetOf_cons]
        omega

theorem batchOf_lt (counts : List ℕ) (i : ℕ) (h : i < counts.sum) :
    batchOf counts i < counts.length := by
  induction counts generalizing i with
  | nil => simp at h
  | cons c cs ih =>
      by_cases hc : i < c
      · simp [batchOf, hc]
      · have : i - c < cs.sum := by
          simp only [List.sum_cons] at h; omega
        simp only [batchOf, hc, if_false, List.length_cons]
        exact Nat.succ_lt_succ (ih (i - c) this)

/-- Round trip `voxel_inds[vids[i]]` of the source: translating a global point
index into its batch-local index and back is the identity. -/
theorem voxelInd_vid (counts : List ℕ) (i : ℕ) :
    voxelInd counts (batchOf counts i) (vid counts i) = i := by
  have := offsetOf_le counts i
  simp [voxelInd, vid]
  omega

/-- Modelled from the spec: `complete_graph` from `mlreco/utils/gnn/network.py`
is not under src/ (only its call sites in `full_chain_5.py` lines 114 and 191
and `cluster_edge_gnn.py` line 79 are). Following the Graph Builder algorithm of the spec:
group entity indices by batch id; for each batch id, form all pairs within that
group, in global entity numbering; no cross-batch pairs. -/
def complete_graph (batchIds : List ℕ) : List (ℕ × ℕ) :=
  (List.range batchIds.length).flatMap (fun i =>
    (List.range batchIds.length).filterMap (fun j =>
      if i < j ∧ batchIds.getD i 0 = batchIds.getD j 0 then some (i, j) else none))

/-- C5: every edge in every edge index built by the pipeline (the fragment
graph, the particle graph, and the graph of the cluster-edge model are all
built by `complete_graph` over the batch ids of the entities) connects two in-range entities
whose batch ids are identical; no edge crosses batch elements. -/
theorem c5_no_cross_batch_edges (batchIds : List ℕ) (e : ℕ × ℕ)
    (h : e ∈ complete_graph batchIds) :
    e.1 < batchIds.length ∧ e.2 < batchIds.length ∧
      batchIds.getD e.1 0 = batchIds.getD e.2 0 := by
  simp only [complete_graph, List.mem_flatMap, List.mem_filterMap,
    List.mem_range] at h
  obtain ⟨i, hi, j, hj, hij⟩ := h
  split at hij
  · obtain rfl : (i, j) = e := Option.some.inj hij
    rename_i hc
    exact ⟨hi, hj, hc.2⟩
  · cases hij

/-- Witness for C5 at a concrete two-batch input. -/
theorem c5_no_cross_batch_edges_witness :
    ((0, 1) ∈ complete_graph [3, 3, 4]) ∧
      [3, 3, 4].getD 0 0 = [3, 3, 4].getD 1 0 :=
  ⟨by decide, (c5_no_cross_batch_edges [3, 3, 4] (0, 1) (by decide)).2.2⟩

/-- Disjoint-set union in relabelling form: merge the group of cluster `i`
into the group of cluster `j` by remapping every representative equal to
`g i` onto `g j`. This computes the same partition as pointer-based
union-find with path compression. -/
def ufJoin (g : ℕ → ℕ) (i j : ℕ) : ℕ → ℕ :=
  fun x => if g x = g i then g j else g x

/-- One edge-processing step of the greedy grouping: join the two endpoints
of the edge exactly when its affinity exceeds the threshold. -/
def ufStep (thresh : ℚ) (g : ℕ → ℕ) (e : (ℕ × ℕ) × ℚ) : ℕ → ℕ :=
  if thresh < e.2 then ufJoin g e.1.1 e.1.2 else g

/-- Modelled from the spec: `assign_clusters_UF` from
`mlreco/utils/gnn/evaluation.py` is not under src/ (only its call site at
`cluster_edge_gnn.py` line 189 is). Per the spec: edges are considered in
descending affinity order; two fragments are joined into the same group
exactly when the affinity exceeds the fixed threshold; each of the `n`
clusters ends in exactly one group (its final representative). -/
def assign_clusters_UF (edge_index : List (ℕ × ℕ)) (fe : List ℚ) (n : ℕ)
    (thresh : ℚ) : List ℕ :=
  let wedges := edge_index.zip fe
  let sorted := wedges.mergeSort (fun a b => decide (b.2 ≤ a.2))
  let g := sorted.foldl (ufStep thresh) id
  (List.range n).map g

theorem ufStep_congr (t : ℚ) (g : ℕ → ℕ) (e : (ℕ × ℕ) × ℚ) {i j : ℕ}
    (h : g i = g j) : ufStep t g e i = ufStep t g e j := by
  unfold ufStep ufJoin
  split <;> simp [h]

theorem ufFold_congr (t : ℚ) (l : List ((ℕ × ℕ) × ℚ)) :
    ∀ (g : ℕ → ℕ) {i j : ℕ}, g i = g j →
      l.foldl (ufStep t) g i = l.foldl (ufStep t) g j := by
  induction l with
  | nil => intro g i j h; simpa using h
  | cons e l ih =>
      intro g i j h
      exact ih (ufStep t g e) (ufStep_congr t g e h)

theorem ufStep_join (t : ℚ) (g : ℕ → ℕ) (e : (ℕ × ℕ) × ℚ) (h : t < e.2) :
    ufStep t g e e.1.1 = ufStep t g e e.1.2 := by
  simp [ufStep, h, ufJoin]

/-- After folding the whole edge list, the endpoints of every
above-threshold edge share a representative. -/
theorem ufFold_join (t : ℚ) (l : List ((ℕ × ℕ) × ℚ)) :
    ∀ (g : ℕ → ℕ) (e : (ℕ × ℕ) × ℚ), e ∈ l → t < e.2 →
      l.foldl (ufStep t) g e.1.1 = l.foldl (ufStep t) g e.1.2 := by
  induction l with
  | nil => intro g e he; cases he
  | cons hd tl ih =>
      intro g e he ht
      rcases List.mem_cons.mp he with rfl | hmem
      · exact ufFold_congr t tl (ufStep t g e) (ufStep_join t g e ht)
      · exact ih (ufStep t g hd) e hmem ht

/-- The grouping is total: `assign_clusters_UF` returns exactly one group id
per cluster. -/
theorem assign_clusters_UF_length (edge_index : List (ℕ × ℕ)) (fe : List ℚ)
    (n : ℕ) (thresh : ℚ) :
    (assign_clusters_UF edge_index fe n thresh).length = n := by
  simp [assign_clusters_UF]

/-- Endpoints of an edge whose affinity exceeds the threshold end in the
same group. -/
theorem assign_clusters_UF_join (edge_index : List (ℕ × ℕ)) (fe : List ℚ)
    (n : ℕ) (thresh : ℚ) (p : ℕ × ℕ) (w : ℚ)
    (hmem : (p, w) ∈ edge_index.zip fe) (hw : thresh < w)
    (h1 : p.1 < n) (h2 : p.2 < n) :
    (assign_clusters_UF edge_index fe n thresh).getD p.1 0 =
      (assign_clusters_UF edge_index fe n thresh).getD p.2 0 := by
  unfold assign_clusters_UF
  have hs : (p, w) ∈ (edge_index.zip fe).mergeSort (fun a b => decide (b.2 ≤ a.2)) :=
    List.mem_mergeSort.mpr hmem
  have hj := ufFold_join thresh
    ((edge_index.zip fe).mergeSort (fun a b => decide (b.2 ≤ a.2))) id (p, w) hs hw
  simp only [List.getD_eq_getElem?_getD]
  rw [List.getElem?_map, List.getElem?_map]
  simp [List.getElem?_range, h1, h2]
  exact hj

/-- A 3D point on the voxel grid (integer coordinates). -/
abbrev Pt := ℤ × ℤ × ℤ

/-- Squared Euclidean distance. `local_cdist` (full_chain_5.py line 203)
computes Euclidean distances; since squaring is monotone on nonnegative
reals, the argmax over this matrix selects the same entry, and the actual
Euclidean distance is recovered as `Real.sqrt (sqdist a b)`. -/
def sqdist (a b : Pt) : ℤ :=
  (a.1 - b.1) ^ 2 + (a.2.1 - b.2.1) ^ 2 + (a.2.2 - b.2.2) ^ 2

/-- Row-major flattening of the pairwise distance matrix
`local_cdist(input[p,:3], input[p,:3])`, as seen by `torch.argmax`. -/
def dist_mat (pts : List Pt) : List ℤ :=
  pts.flatMap (fun a => pts.map (fun b => sqdist a b))

/-- Maximum entry of a list of nonnegative values (0 when empty). -/
def listMax (l : List ℤ) : ℤ := l.foldr max 0

/-- Semantics of `torch.argmax` over a flattened tensor: index of the first maximal
entry. -/
def argmaxIdx (l : List ℤ) : ℕ := l.findIdx (fun v => v = listMax l)

/-- full_chain_5.py lines 203-205:
`idx = torch.argmax(dist_mat); start_id, end_id = idx // len(p), idx % len(p)`. -/
def trackEndpointIds (pts : List Pt) : ℕ × ℕ :=
  let idx := argmaxIdx (dist_mat pts)
  (idx / pts.length, idx % pts.length)

/-- Point lookup with the tuple default (out-of-range never occurs in use). -/
def ptAt (pts : List Pt) (k : ℕ) : Pt := pts.getD k (0, 0, 0)

def ptSub (a b : Pt) : Pt := (a.1 - b.1, a.2.1 - b.2.1, a.2.2 - b.2.2)

/-- Coordinates of a grid point as real numbers. -/
def qVec (v : Pt) : ℝ × ℝ × ℝ := ((v.1 : ℝ), (v.2.1 : ℝ), (v.2.2 : ℝ))

/-- full_chain_5.py lines 207-209: `dir = end - start;
if dir.norm(): dir = dir / dir.norm()` — the direction is divided by its
Euclidean norm only when that norm is nonzero (a zero norm is falsy and
leaves the vector unnormalized). -/
noncomputable def trackDir (v : Pt) : ℝ × ℝ × ℝ :=
  let n : ℝ := Real.sqrt ((v.1 : ℝ) ^ 2 + (v.2.1 : ℝ) ^ 2 + (v.2.2 : ℝ) ^ 2)
  if n = 0 then qVec v else ((v.1 : ℝ) / n, (v.2.1 : ℝ) / n, (v.2.2 : ℝ) / n)

theorem sqdist_self (a : Pt) : sqdist a a = 0 := by
  simp [sqdist]

theorem sqdist_nonneg (a b : Pt) : 0 ≤ sqdist a b := by
  unfold sqdist
  positivity

theorem le_listMax (l : List ℤ) (v : ℤ) (hv : v ∈ l) : v ≤ listMax l := by
  induction l with
  | nil => cases hv
  | cons x xs ih =>
      rcases List.mem_cons.mp hv with rfl | h
      · exact le_max_left _ _
      · exact le_trans (ih h) (le_max_right _ _)

theorem listMax_mem_or_zero (l : List ℤ) : listMax l ∈ l ∨ listMax l = 0 := by
  induction l with
  | nil => right; rfl
  | cons x xs ih =>
      have hmax : listMax (x :: xs) = max x (listMax xs) := rfl
      rcases max_choice x (listMax xs) with h | h
      · left; rw [hmax, h]; exact List.mem_cons_self _ _
      · rcases ih with hmem | hzero
        · left; rw [hmax, h]; exact List.mem_cons_of_mem _ hmem
        · right; rw [hmax, h, hzero]

theorem listMax_mem (l : List ℤ) (h0 : (0 : ℤ) ∈ l) : listMax l ∈ l := by
  rcases listMax_mem_or_zero l with h | h
  · exact h
  · rw [h]; exact h0

theorem argmaxIdx_lt (l : List ℤ) (h : listMax l ∈ l) :
    argmaxIdx l < l.length :=
  List.findIdx_lt_length_of_exists ⟨listMax l, h, by simp⟩

theorem getElem_argmaxIdx (l : List ℤ) (h : listMax l ∈ l) :
    l.get ⟨argmaxIdx l, argmaxIdx_lt l h⟩ = listMax l := by
  have hfi := @List.findIdx_getElem ℤ (fun v => decide (v = listMax l)) l
    (argmaxIdx_lt l h)
  rw [List.get_eq_getElem]
  simpa [argmaxIdx] using hfi

theorem length_flatMap_const {α β : Type} (l : List α) (f : α → List β) (n : ℕ)
    (hn : ∀ a, (f a).length = n) : (l.flatMap f).length = l.length * n := by
  induction l with
  | nil => simp
  | cons a as ih =>
      simp only [List.flatMap_cons, List.length_append, ih, hn a,
        List.length_cons]
      ring

theorem flatMap_getElem? {α β : Type} (l : List α) (f : α → List β) (n : ℕ)
    (hn : ∀ a, (f a).length = n) :
    ∀ (k j : ℕ) (hk : k < l.length), j < n →
      (l.flatMap f)[k * n + j]? = (f l[k])[j]? := by
  induction l with
  | nil => intro k j hk; cases hk
  | cons a as ih =>
      intro k j hk hj
      cases k with
      | zero =>
          simp only [List.flatMap_cons, Nat.zero_mul, Nat.zero_add,
            List.getElem_cons_zero]
          rw [List.getElem?_append_left]
          rw [hn a]; exact hj
      | succ k =>
          have hk' : k < as.length := by
            simpa using Nat.lt_of_succ_lt_succ hk
          have harith : (k + 1) * n + j = n + (k * n + j) := by ring
          simp only [List.flatMap_cons, List.getElem_cons_succ, harith]
          rw [List.getElem?_append_right (by rw [hn a]; omega)]
          rw [hn a]
          simpa using ih k j hk' hj

theorem dist_mat_length (pts : List Pt) :
    (dist_mat pts).length = pts.length * pts.length :=
  length_flatMap_const pts _ pts.length (fun a => by simp)

theorem zero_mem_dist_mat (pts : List Pt) (h : pts ≠ []) :
    (0 : ℤ) ∈ dist_mat pts := by
  obtain ⟨a, as, rfl⟩ := List.exists_cons_of_ne_nil h
  exact List.mem_flatMap.mpr ⟨a, List.mem_cons_self _ _,
    List.mem_map.mpr ⟨a, List.mem_cons_self _ _, sqdist_self a⟩⟩

theorem dist_mat_getElem? (pts : List Pt) (k j : ℕ)
    (hk : k < pts.length) (hj : j < pts.length) :
    (dist_mat pts)[k * pts.length + j]? =
      some (sqdist pts[k] pts[j]) := by
  unfold dist_mat
  rw [flatMap_getElem? pts _ pts.length (fun a => by simp) k j hk hj]
  simp [hj]

/-- The pair of indices chosen by the argmax over the flattened distance
matrix is in range and attains the maximum pairwise squared distance. -/
theorem trackEndpointIds_spec (pts : List Pt) (hne : pts ≠ []) :
    (trackEndpointIds pts).1 < pts.length ∧
    (trackEndpointIds pts).2 < pts.length ∧
    ∀ (k j : ℕ), k < pts.length → j < pts.length →
      sqdist (ptAt pts k) (ptAt pts j) ≤
        sqdist (ptAt pts (trackEndpointIds pts).1)
          (ptAt pts (trackEndpointIds pts).2) := by
  have hn : 0 < pts.length := List.length_pos.mpr hne
  have hmax : listMax (dist_mat pts) ∈ dist_mat pts :=
    listMax_mem _ (zero_mem_dist_mat pts hne)
  have hidx : argmaxIdx (dist_mat pts) < pts.length * pts.length := by
    have := argmaxIdx_lt _ hmax
    rwa [dist_mat_length] at this
  have hs : argmaxIdx (dist_mat pts) / pts.length < pts.length :=
    Nat.div_lt_of_lt_mul hidx
  have he : argmaxIdx (dist_mat pts) % pts.length < pts.length :=
    Nat.mod_lt _ hn
  have hdecomp : argmaxIdx (dist_mat pts) / pts.length * pts.length +
      argmaxIdx (dist_mat pts) % pts.length = argmaxIdx (dist_mat pts) := by
    rw [Nat.mul_comm]
    exact Nat.div_add_mod _ _
  have hentry := dist_mat_getElem? pts _ _ hs he
  rw [hdecomp] at hentry
  have hval : sqdist (pts[argmaxIdx (dist_mat pts) / pts.length])
      (pts[argmaxIdx (dist_mat pts) % pts.length]) =
      listMax (dist_mat pts) := by
    have hlt : argmaxIdx (dist_mat pts) < (dist_mat pts).length := by
      rwa [dist_mat_length]
    have h1 : (dist_mat pts)[argmaxIdx (dist_mat pts)]? =
        some ((dist_mat pts)[argmaxIdx (dist_mat pts)]) :=
      List.getElem?_eq_getElem hlt
    rw [h1] at hentry
    have h2 := getElem_argmaxIdx (dist_mat pts) hmax
    rw [List.get_eq_getElem] at h2
    rw [← h2]
    exact (Option.some.inj hentry).symm
  refine ⟨hs, he, ?_⟩
  intro k j hk hj
  have hkj : (dist_mat pts)[k * pts.length + j]? =
      some (sqdist pts[k] pts[j]) := dist_mat_getElem? pts k j hk hj
  have hmem : sqdist pts[k] pts[j] ∈ dist_mat pts :=
    List.getElem?_mem hkj
  have hle := le_listMax _ _ hmem
  have hptk : ptAt pts k = pts[k] := List.getD_eq_getElem _ _ hk
  have hptj : ptAt pts j = pts[j] := List.getD_eq_getElem _ _ hj
  have hpts : ptAt pts (trackEndpointIds pts).1 =
      pts[argmaxIdx (dist_mat pts) / pts.length] :=
    List.getD_eq_getElem _ _ hs
  have hpte : ptAt pts (trackEndpointIds pts).2 =
      pts[argmaxIdx (dist_mat pts) % pts.length] :=
    List.getD_eq_getElem _ _ he
  rw [hptk, hptj, hpts, hpte, hval]
  exact hle

/-- The 4-point colinear scenario from the spec: positions 0, 1, 2, 3 along
the x axis. -/
def demoTrack : List Pt := [(0, 0, 0), (1, 0, 0), (2, 0, 0), (3, 0, 0)]

/-- C7: for every track-like particle (semantic class 1), `FullChain.forward`
sets start and end to the two constituent points at maximum pairwise
Euclidean distance (exact O(n²) search over the full distance matrix) and
direction to the normalization of end − start; in particular, for 4 colinear
points at positions 0, 1, 2, 3 along one axis, start/end are the points at 0
and 3 and the direction is the unit x vector. -/
theorem c7_track_endpoints_and_direction :
    (∀ (pts : List Pt), pts ≠ [] →
      ∀ (k j : ℕ), k < pts.length → j < pts.length →
        Real.sqrt ((sqdist (ptAt pts k) (ptAt pts j) : ℤ) : ℝ) ≤
          Real.sqrt ((sqdist (ptAt pts (trackEndpointIds pts).1)
            (ptAt pts (trackEndpointIds pts).2) : ℤ) : ℝ)) ∧
    trackEndpointIds demoTrack = (0, 3) ∧
    ptAt demoTrack 0 = (0, 0, 0) ∧ ptAt demoTrack 3 = (3, 0, 0) ∧
    trackDir (ptSub (ptAt demoTrack 3) (ptAt demoTrack 0)) =
      ((1 : ℝ), (0 : ℝ), (0 : ℝ)) := by
  refine ⟨?_, by decide, by decide, by decide, ?_⟩
  · intro pts hne k j hk hj
    have h := (trackEndpointIds_spec pts hne).2.2 k j hk hj
    exact Real.sqrt_le_sqrt (by exact_mod_cast h)
  · have hsub : ptSub (ptAt demoTrack 3) (ptAt demoTrack 0) = (3, 0, 0) := by
      decide
    rw [hsub]
    unfold trackDir
    have hsqrt : Real.sqrt ((((3, 0, 0) : Pt).1 : ℝ) ^ 2 +
        (((3, 0, 0) : Pt).2.1 : ℝ) ^ 2 + (((3, 0, 0) : Pt).2.2 : ℝ) ^ 2) = 3 := by
      push_cast
      rw [show ((3 : ℝ) ^ 2 + 0 ^ 2 + 0 ^ 2) = 3 ^ 2 by norm_num]
      exact Real.sqrt_sq (by norm_num)
    simp only [hsqrt]
    norm_num

/-- Witness for C7 at a concrete pair of points of the scenario input. -/
theorem c7_track_endpoints_and_direction_witness :
    Real.sqrt ((sqdist (ptAt demoTrack 1) (ptAt demoTrack 2) : ℤ) : ℝ) ≤
      Real.sqrt ((sqdist (ptAt demoTrack (trackEndpointIds demoTrack).1)
        (ptAt demoTrack (trackEndpointIds demoTrack).2) : ℤ) : ℝ) :=
  c7_track_endpoints_and_direction.1 demoTrack (by decide) 1 2
    (by decide) (by decide)

/-- C10: for a track-like particle whose two maximum-distance endpoints
coincide, the displacement is the zero vector and the direction is left as
the unnormalized zero vector — the division by the norm is executed only
when the norm is nonzero, so no division by zero occurs. -/
theorem c10_zero_norm_direction (pts : List Pt)
    (h : ptAt pts (trackEndpointIds pts).1 = ptAt pts (trackEndpointIds pts).2) :
    ptSub (ptAt pts (trackEndpointIds pts).2)
        (ptAt pts (trackEndpointIds pts).1) = (0, 0, 0) ∧
    trackDir (ptSub (ptAt pts (trackEndpointIds pts).2)
        (ptAt pts (trackEndpointIds pts).1)) =
      ((0 : ℝ), (0 : ℝ), (0 : ℝ)) := by
  have hsub : ptSub (ptAt pts (trackEndpointIds pts).2)
      (ptAt pts (trackEndpointIds pts).1) = (0, 0, 0) := by
    rw [h]; simp [ptSub]
  refine ⟨hsub, ?_⟩
  rw [hsub]
  unfold trackDir
  norm_num [qVec]

/-- Witness for C10: a track of two coincident points. -/
theorem c10_zero_norm_direction_witness :
    trackDir (ptSub (ptAt [((1 : ℤ), (2 : ℤ), (3 : ℤ)), (1, 2, 3)]
        (trackEndpointIds [((1 : ℤ), (2 : ℤ), (3 : ℤ)), (1, 2, 3)]).2)
      (ptAt [((1 : ℤ), (2 : ℤ), (3 : ℤ)), (1, 2, 3)]
        (trackEndpointIds [((1 : ℤ), (2 : ℤ), (3 : ℤ)), (1, 2, 3)]).1)) =
      ((0 : ℝ), (0 : ℝ), (0 : ℝ)) :=
  (c10_zero_norm_direction [((1 : ℤ), (2 : ℤ), (3 : ℤ)), (1, 2, 3)]
    (by decide)).2

/-- The `full_chain_loss` configuration block (full_chain_5.py, class
docstring lines 51-55 document the four keys `segmentation_weight`,
`ppn_weight`, `particle_gnn_weight`, `interaction_gnn_weight`); `none`
models an absent key. -/
structure FullChainLossConfig where
  segmentation_weight : Option ℚ
  ppn_weight : Option ℚ
  particle_gnn_weight : Option ℚ
  interaction_gnn_weight : Option ℚ

/-- Source line 260 of `FullChainLoss.__init__`: read key segmentation_weight
with default 1.0. -/
def segmentationWeight (c : FullChainLossConfig) : ℚ :=
  c.segmentation_weight.getD 1

/-- Source line 261 of `FullChainLoss.__init__`: read key ppn_weight with
default 1.0. -/
def ppnWeight (c : FullChainLossConfig) : ℚ := c.ppn_weight.getD 1

/-- Source line 262 of `FullChainLoss.__init__`: read key particle_gnn_weight
with default 1.0. -/
def particleGnnWeight (c : FullChainLossConfig) : ℚ :=
  c.particle_gnn_weight.getD 1

/-- Source line 263 of `FullChainLoss.__init__` sets the interaction weight by
reading the particle_gnn_weight key (not interaction_gnn_weight). -/
def interGnnWeight (c : FullChainLossConfig) : ℚ :=
  c.particle_gnn_weight.getD 1

/-- Source lines 321-324 of `FullChainLoss.forward`: the combined scalar loss
`segmentation_weight*seg + ppn_weight*ppn + particle_gnn_weight*part +
inter_gnn_weight*inter`. -/
def fullChainLossCombine (c : FullChainLossConfig)
    (segLoss ppnLoss partLoss interLoss : ℚ) : ℚ :=
  segmentationWeight c * segLoss + ppnWeight c * ppnLoss
    + particleGnnWeight c * partLoss + interGnnWeight c * interLoss

/-- The combination as the claim (and the class docstring) states it: each
of the four component losses multiplied by a weight read from its own
configuration key, defaulting to 1.0 when absent. -/
def claimedLossCombine (c : FullChainLossConfig)
    (segLoss ppnLoss partLoss interLoss : ℚ) : ℚ :=
  c.segmentation_weight.getD 1 * segLoss + c.ppn_weight.getD 1 * ppnLoss
    + c.particle_gnn_weight.getD 1 * partLoss
    + c.interaction_gnn_weight.getD 1 * interLoss

/-- C4 (code bug, full_chain_5.py line 263): with
`particle_gnn_weight = 2` and `interaction_gnn_weight = 3` configured and
all four component losses equal to 1, the code combines them into 6 (it
multiplies the interaction-GNN loss by the *particle* weight 2), while the
claimed independently-configurable weighting yields 7. -/
theorem c4_interaction_weight_not_independent :
    interGnnWeight ⟨none, none, some 2, some 3⟩ = 2 ∧
    fullChainLossCombine ⟨none, none, some 2, some 3⟩ 1 1 1 1 = 6 ∧
    claimedLossCombine ⟨none, none, some 2, some 3⟩ 1 1 1 1 = 7 ∧
    fullChainLossCombine ⟨none, none, some 2, some 3⟩ 1 1 1 1 ≠
      claimedLossCombine ⟨none, none, some 2, some 3⟩ 1 1 1 1 := by
  refine ⟨rfl, ?_, ?_, ?_⟩ <;>
    norm_num [fullChainLossCombine, claimedLossCombine, segmentationWeight,
      ppnWeight, particleGnnWeight, interGnnWeight]

/-- Abstract interface to the collaborators called by
`EdgeChannelLoss.forward` (cluster_edge_gnn.py) that are not under src/:
the gnn utility helpers and the configured torch loss function. `D` is the
type of a per-replica data tensor. -/
structure LossEnv (D : Type) where
  /-- Helper `form_clusters_new(data0)`. -/
  form_clusters_new : D → List (List ℕ)
  /-- Helper `filter_compton(clusts, compton_thresh)`: selected cluster indices. -/
  filter_compton : List (List ℕ) → ℕ → List ℕ
  /-- Loss `self.lossfn(edge_pred, edge_assn)` (cross-entropy or margin loss). -/
  lossfn : (List ℚ × List ℚ) → List ℕ → ℚ
  /-- Loss `self.lossfn(edge_pred, edge_pred)`: the self-comparison value. -/
  lossfn_self : (List ℚ × List ℚ) → ℚ
  /-- Helper `get_cluster_batch(data0, clusts)`. -/
  get_cluster_batch : D → List (List ℕ) → List ℕ
  /-- Helper `get_cluster_label(data_grp, clusts)`. -/
  get_cluster_label : D → List (List ℕ) → List ℕ
  /-- Helper `edge_assignment(edge_index, batch, group)`. -/
  edge_assignment : List (ℕ × ℕ) → List ℕ → List ℕ → List ℕ
  /-- Metrics `DBSCAN_cluster_metrics2(cs, clusts, group)`: ari, ami, sbd, pur, eff. -/
  metrics : List ℕ → List (List ℕ) → List ℕ → ℚ × ℚ × ℚ × ℚ × ℚ

/-- Configuration of `EdgeChannelLoss`: `remove_compton` (default True) and
`compton_thresh` (default 30). -/
structure EdgeLossCfg where
  remove_compton : Bool
  compton_thresh : ℕ

/-- Slice of the loss inputs owned by one replica: entry `i` of the edge_pred
list (as its two logit rows), `clusters[i]` and `groups[i]`. -/
structure Replica (D : Type) where
  edge_pred : List ℚ × List ℚ
  data0 : D
  data1 : D

/-- The loop accumulators of `EdgeChannelLoss.forward` (lines 136-138). -/
structure LossAcc where
  edge_ct : ℕ
  total_loss : ℚ
  total_acc : ℚ
  ari : ℚ
  ami : ℚ
  sbd : ℚ
  pur : ℚ
  eff : ℚ

/-- The dictionary returned by `EdgeChannelLoss.forward` (lines 204-213). -/
structure LossOut where
  ARI : ℚ
  AMI : ℚ
  SBD : ℚ
  purity : ℚ
  efficiency : ℚ
  accuracy : ℚ
  loss : ℚ
  edge_count : ℕ

/-- Selection by `filter_compton` for one replica (line 156). -/
def replicaSelection {D : Type} (cfg : EdgeLossCfg) (env : LossEnv D)
    (r : Replica D) : List ℕ :=
  env.filter_compton (env.form_clusters_new r.data0) cfg.compton_thresh

/-- The clusters the replica works with after the optional compton removal
(lines 150 and 162: `clusts = clusts[selection]`). -/
def selClusts {D : Type} (cfg : EdgeLossCfg) (env : LossEnv D)
    (r : Replica D) : List (List ℕ) :=
  let clusts := env.form_clusters_new r.data0
  if cfg.remove_compton then
    (replicaSelection cfg env r).map (fun i => clusts.getD i [])
  else clusts

/-- Lines 169-170: `batch = get_cluster_batch(data0, clusts);
edge_index = complete_graph(batch)`. -/
def replicaEdgeIndex {D : Type} (cfg : EdgeLossCfg) (env : LossEnv D)
    (r : Replica D) : List (ℕ × ℕ) :=
  complete_graph (env.get_cluster_batch r.data0 (selClusts cfg env r))

/-- Line 188: `fe = edge_pred[1,:] - edge_pred[0,:]`, the signed difference
of the two output logit rows. -/
def feOf (edge_pred : List ℚ × List ℚ) : List ℚ :=
  List.zipWith (fun b a => b - a) edge_pred.2 edge_pred.1

/-- Line 189: the discrete grouping handed to the clustering-quality
metrics, `cs = assign_clusters_UF(edge_index, fe, len(clusts), thresh=0.0)`. -/
def metricsGrouping (edge_index : List (ℕ × ℕ))
    (edge_pred : List ℚ × List ℚ) (nclusts : ℕ) : List ℕ :=
  assign_clusters_UF edge_index (feOf edge_pred) nclusts 0

/-- Line 185: `total_loss = self.lossfn(edge_pred, edge_assn)` — note this
is an assignment overwriting the accumulator, not `+=`. -/
def replicaEdgeLoss {D : Type} (cfg : EdgeLossCfg) (env : LossEnv D)
    (r : Replica D) : ℚ :=
  env.lossfn r.edge_pred
    (env.edge_assignment (replicaEdgeIndex cfg env r)
      (env.get_cluster_batch r.data0 (selClusts cfg env r))
      (env.get_cluster_label r.data1 (selClusts cfg env r)))

/-- The replica is non-degenerate: the compton filter keeps at least one
cluster (when `remove_compton` is on) and the complete graph has at least
one edge. -/
def ReplicaValid {D : Type} (cfg : EdgeLossCfg) (env : LossEnv D)
    (r : Replica D) : Prop :=
  (cfg.remove_compton = true → replicaSelection cfg env r ≠ []) ∧
    replicaEdgeIndex cfg env r ≠ []

instance {D : Type} (cfg : EdgeLossCfg) (env : LossEnv D) (r : Replica D) :
    Decidable (ReplicaValid cfg env r) := by
  unfold ReplicaValid; infer_instance

/-- The accumulator update of one valid loop iteration (lines 177-202). -/
def replicaUpdate {D : Type} (cfg : EdgeLossCfg) (env : LossEnv D)
    (st : LossAcc) (r : Replica D) : LossAcc :=
  let m := env.metrics
    (metricsGrouping (replicaEdgeIndex cfg env r) r.edge_pred
      (selClusts cfg env r).length)
    (selClusts cfg env r)
    (env.get_cluster_label r.data1 (selClusts cfg env r))
  { st with
    total_loss := replicaEdgeLoss cfg env r
    ari := st.ari + m.1
    ami := st.ami + m.2.1
    sbd := st.sbd + m.2.2.1
    pur := st.pur + m.2.2.2.1
    eff := st.eff + m.2.2.2.2
    edge_ct := st.edge_ct + (replicaEdgeIndex cfg env r).length }

/-- One iteration of the `for i in range(ngpus)` loop (lines 140-202).
The two degenerate branches reference the undefined names `ttotal_loss`
(line 158) and `totalacc` (lines 159 and 174) and so raise `NameError`;
the raise aborts the whole forward call, discarding the local
accumulators. -/
def replicaStep {D : Type} (cfg : EdgeLossCfg) (env : LossEnv D)
    (st : LossAcc) (r : Replica D) : Except String LossAcc :=
  if cfg.remove_compton = true ∧ replicaSelection cfg env r = [] then
    Except.error "NameError: name ttotal_loss is not defined"
  else if replicaEdgeIndex cfg env r = [] then
    Except.error "NameError: name totalacc is not defined"
  else
    Except.ok (replicaUpdate cfg env st r)

/-- The returned dictionary (lines 204-213): every accumulator except
`edge_count` is divided by `ngpus`. -/
def lossOutOf (st : LossAcc) (ngpus : ℚ) : LossOut :=
  { ARI := st.ari / ngpus
    AMI := st.ami / ngpus
    SBD := st.sbd / ngpus
    purity := st.pur / ngpus
    efficiency := st.eff / ngpus
    accuracy := st.total_acc / ngpus
    loss := st.total_loss / ngpus
    edge_count := st.edge_ct }

/-- Forward of `EdgeChannelLoss` (cluster_edge_gnn.py lines 126-213):
fold the loop over the `ngpus` replicas and divide the accumulators by
`ngpus = len(clusters)`. -/
def edgeChannelLossForward {D : Type} (cfg : EdgeLossCfg) (env : LossEnv D)
    (replicas : List (Replica D)) : Except String LossOut :=
  (replicas.foldlM (replicaStep cfg env)
      ⟨0, 0, 0, 0, 0, 0, 0, 0⟩).map
    (fun st => lossOutOf st (replicas.length : ℚ))

theorem replicaStep_error {D : Type} (cfg : EdgeLossCfg) (env : LossEnv D)
    (r : Replica D)
    (h : (cfg.remove_compton = true ∧ replicaSelection cfg env r = []) ∨
      replicaEdgeIndex cfg env r = []) (st : LossAcc) :
    (replicaStep cfg env st r).isOk = false := by
  unfold replicaStep
  by_cases h1 : cfg.remove_compton = true ∧ replicaSelection cfg env r = []
  · rw [if_pos h1]; rfl
  · rcases h with h | h
    · exact absurd h h1
    · rw [if_neg h1, if_pos h]; rfl

theorem replicaStep_valid {D : Type} (cfg : EdgeLossCfg) (env : LossEnv D)
    (r : Replica D) (h : ReplicaValid cfg env r) (st : LossAcc) :
    replicaStep cfg env st r = Except.ok (replicaUpdate cfg env st r) := by
  obtain ⟨h1, h2⟩ := h
  unfold replicaStep
  have hc : ¬(cfg.remove_compton = true ∧ replicaSelection cfg env r = []) := by
    rintro ⟨hrc, hsel⟩
    exact h1 hrc hsel
  simp [hc, h2]

theorem replicaUpdate_total_acc {D : Type} (cfg : EdgeLossCfg)
    (env : LossEnv D) (st : LossAcc) (r : Replica D) :
    (replicaUpdate cfg env st r).total_acc = st.total_acc := rfl

theorem replicaUpdate_total_loss {D : Type} (cfg : EdgeLossCfg)
    (env : LossEnv D) (st : LossAcc) (r : Replica D) :
    (replicaUpdate cfg env st r).total_loss = replicaEdgeLoss cfg env r := rfl

/-- If any replica hits a degenerate branch, the whole fold raises. -/
theorem lossFold_error {D : Type} (cfg : EdgeLossCfg) (env : LossEnv D) :
    ∀ (l : List (Replica D)) (st : LossAcc),
      (∃ r ∈ l, (cfg.remove_compton = true ∧ replicaSelection cfg env r = []) ∨
        replicaEdgeIndex cfg env r = []) →
      (l.foldlM (replicaStep cfg env) st).isOk = false := by
  intro l
  induction l with
  | nil => rintro st ⟨r, hr, -⟩; cases hr
  | cons a l ih =>
      rintro st ⟨r, hr, hdeg⟩
      rw [List.foldlM_cons]
      rcases hstep : replicaStep cfg env st a with e | st'
      · rfl
      · rcases List.mem_cons.mp hr with rfl | hmem
        · have herr := replicaStep_error cfg env r hdeg st
          rw [hstep] at herr
          exact Bool.noConfusion herr
        · exact ih st' ⟨r, hmem, hdeg⟩

/-- On an all-valid replica list the fold succeeds; the accuracy
accumulator is never touched, and the loss accumulator holds the loss of
the *last* replica (line 185 overwrites it). -/
theorem lossFold_valid {D : Type} (cfg : EdgeLossCfg) (env : LossEnv D) :
    ∀ (l : List (Replica D)), (∀ r ∈ l, ReplicaValid cfg env r) →
      ∀ (st : LossAcc), ∃ st',
        l.foldlM (replicaStep cfg env) st = Except.ok st' ∧
        st'.total_acc = st.total_acc ∧
        st'.total_loss =
          ((l.getLast?).map (replicaEdgeLoss cfg env)).getD st.total_loss := by
  intro l
  induction l with
  | nil =>
      intro _ st
      exact ⟨st, rfl, rfl, rfl⟩
  | cons a l ih =>
      intro hv st
      have ha : ReplicaValid cfg env a := hv a (List.mem_cons_self _ _)
      have hstep := replicaStep_valid cfg env a ha st
      obtain ⟨st', heq, hacc, hloss⟩ :=
        ih (fun r hr => hv r (List.mem_cons_of_mem _ hr))
          (replicaUpdate cfg env st a)
      refine ⟨st', ?_, ?_, ?_⟩
      · rw [List.foldlM_cons, hstep]
        exact heq
      · rw [hacc, replicaUpdate_total_acc]
      · rcases l with - | ⟨b, l'⟩
        · rw [hloss]
          simp [replicaUpdate_total_loss]
        · have hx : (b :: l').getLast? =
              some ((b :: l').getLast (by simp)) :=
            List.getLast?_eq_getLast _ (by simp)
          rw [List.getLast?_cons_cons, hx]
          rw [hx] at hloss
          simpa using hloss

/-- C3 is a code bug: cluster_edge_gnn.py lines 158-159 misspell the
accumulators (`ttotal_loss`, `totalacc` for `total_loss`, `total_acc`), so
a replica whose batch yields no qualifying clusters after compton
filtering raises `NameError` instead of contributing the self-comparison
loss term; the forward call aborts. -/
theorem c3_empty_selection_raises {D : Type} (cfg : EdgeLossCfg)
    (env : LossEnv D) (replicas : List (Replica D))
    (hrc : cfg.remove_compton = true)
    (hex : ∃ r ∈ replicas, replicaSelection cfg env r = []) :
    (edgeChannelLossForward cfg env replicas).isOk = false := by
  unfold edgeChannelLossForward
  obtain ⟨r, hr, hsel⟩ := hex
  have := lossFold_error cfg env replicas ⟨0, 0, 0, 0, 0, 0, 0, 0⟩
    ⟨r, hr, Or.inl ⟨hrc, hsel⟩⟩
  rcases hfold : replicas.foldlM (replicaStep cfg env)
      ⟨0, 0, 0, 0, 0, 0, 0, 0⟩ with e | st
  · rfl
  · rw [hfold] at this
    exact Bool.noConfusion this

/-- A concrete environment whose compton filter rejects everything. -/
def demoEnvEmpty : LossEnv Unit :=
  { form_clusters_new := fun _ => []
    filter_compton := fun _ _ => []
    lossfn := fun _ _ => 0
    lossfn_self := fun _ => 0
    get_cluster_batch := fun _ _ => []
    get_cluster_label := fun _ _ => []
    edge_assignment := fun _ _ _ => []
    metrics := fun _ _ _ => (0, 0, 0, 0, 0) }

/-- Witness for C3: one replica, empty selection, forward raises. -/
theorem c3_empty_selection_raises_witness :
    (edgeChannelLossForward ⟨true, 30⟩ demoEnvEmpty
      [⟨(([], []) : List ℚ × List ℚ), (), ()⟩]).isOk = false :=
  c3_empty_selection_raises ⟨true, 30⟩ demoEnvEmpty
    [⟨(([], []) : List ℚ × List ℚ), (), ()⟩] rfl
    ⟨⟨(([], []) : List ℚ × List ℚ), (), ()⟩, List.mem_singleton.mpr rfl, rfl⟩

/-- C8 is a code bug: on an all-valid input the returned `loss` equals the
loss of the **last** replica divided by `ngpus`, because line 185 assigns
(`total_loss = ...`) instead of accumulating (`+=`) as the surrounding
accumulators (lines 137, 173, 196-200) and the final `/ngpus` averaging
require; per-replica losses are not summed. -/
theorem c8_loss_is_last_replica_not_sum {D : Type} (cfg : EdgeLossCfg)
    (env : LossEnv D) (replicas : List (Replica D))
    (hne : replicas ≠ []) (hv : ∀ r ∈ replicas, ReplicaValid cfg env r) :
    ∃ out, edgeChannelLossForward cfg env replicas = Except.ok out ∧
      out.loss =
        replicaEdgeLoss cfg env (replicas.getLast hne) /
          (replicas.length : ℚ) := by
  obtain ⟨st', hfold, -, hloss⟩ :=
    lossFold_valid cfg env replicas hv ⟨0, 0, 0, 0, 0, 0, 0, 0⟩
  refine ⟨lossOutOf st' (replicas.length : ℚ), ?_, ?_⟩
  · unfold edgeChannelLossForward
    rw [hfold]
    rfl
  · show st'.total_loss / (replicas.length : ℚ) = _
    rw [hloss, List.getLast?_eq_getLast _ hne]
    rfl

/-- C9: when every replica is valid (nonempty selection, nonempty edge
index), the returned `accuracy` is 0: `total_acc` is initialized to 0 and
is only (incorrectly) referenced on the degenerate branches, never on the
valid-edge path. -/
theorem c9_accuracy_zero_on_valid_path {D : Type} (cfg : EdgeLossCfg)
    (env : LossEnv D) (replicas : List (Replica D))
    (hv : ∀ r ∈ replicas, ReplicaValid cfg env r) :
    ∃ out, edgeChannelLossForward cfg env replicas = Except.ok out ∧
      out.accuracy = 0 := by
  obtain ⟨st', hfold, hacc, -⟩ :=
    lossFold_valid cfg env replicas hv ⟨0, 0, 0, 0, 0, 0, 0, 0⟩
  refine ⟨lossOutOf st' (replicas.length : ℚ), ?_, ?_⟩
  · unfold edgeChannelLossForward
    rw [hfold]
    rfl
  · show st'.total_acc / (replicas.length : ℚ) = 0
    rw [hacc]
    exact zero_div _

/-- A concrete all-valid environment: two singleton clusters in one batch
element, so the complete graph has one edge; the loss function reads the
first entry of the first logit row. -/
def demoEnvValid : LossEnv Unit :=
  { form_clusters_new := fun _ => [[0], [1]]
    filter_compton := fun _ _ => [0, 1]
    lossfn := fun p _ => p.1.headD 0
    lossfn_self := fun _ => 0
    get_cluster_batch := fun _ _ => [0, 0]
    get_cluster_label := fun _ _ => [0, 0]
    edge_assignment := fun _ _ _ => [1]
    metrics := fun _ _ _ => (0, 0, 0, 0, 0) }

/-- Two valid replicas with different edge losses. -/
def demoReplicas : List (Replica Unit) :=
  [⟨(([5], [9]) : List ℚ × List ℚ), (), ()⟩,
   ⟨(([7], [9]) : List ℚ × List ℚ), (), ()⟩]

/-- Witness for C8 at two valid replicas. -/
theorem c8_loss_is_last_replica_not_sum_witness :
    ∃ out, edgeChannelLossForward ⟨true, 30⟩ demoEnvValid demoReplicas =
        Except.ok out ∧
      out.loss = replicaEdgeLoss ⟨true, 30⟩ demoEnvValid
          (demoReplicas.getLast (by simp [demoReplicas])) /
        ((demoReplicas.length : ℕ) : ℚ) :=
  c8_loss_is_last_replica_not_sum ⟨true, 30⟩ demoEnvValid demoReplicas
    (by simp [demoReplicas]) (by decide)

/-- Witness for C9 at two valid replicas. -/
theorem c9_accuracy_zero_on_valid_path_witness :
    ∃ out, edgeChannelLossForward ⟨true, 30⟩ demoEnvValid demoReplicas =
        Except.ok out ∧ out.accuracy = 0 :=
  c9_accuracy_zero_on_valid_path ⟨true, 30⟩ demoEnvValid demoReplicas
    (by decide)

/-- C6: the discrete grouping used for the clustering-quality metrics is
`assign_clusters_UF` on the signed affinity `fe = edge_pred[1,:] −
edge_pred[0,:]` with the fixed threshold 0.0 (edges taken in descending
affinity order inside `assign_clusters_UF`); it assigns each of the
`nclusts` clusters exactly one group, and two clusters connected by an edge
whose affinity exceeds 0 end in the same group. -/
theorem c6_metrics_grouping_unionfind (edge_index : List (ℕ × ℕ))
    (edge_pred : List ℚ × List ℚ) (n : ℕ) :
    metricsGrouping edge_index edge_pred n =
      assign_clusters_UF edge_index (feOf edge_pred) n 0 ∧
    (metricsGrouping edge_index edge_pred n).length = n ∧
    ∀ (p : ℕ × ℕ) (w : ℚ), (p, w) ∈ edge_index.zip (feOf edge_pred) →
      0 < w → p.1 < n → p.2 < n →
      (metricsGrouping edge_index edge_pred n).getD p.1 0 =
        (metricsGrouping edge_index edge_pred n).getD p.2 0 :=
  ⟨rfl, assign_clusters_UF_length _ _ _ _,
    fun p w hm hw h1 h2 =>
      assign_clusters_UF_join edge_index (feOf edge_pred) n 0 p w hm hw h1 h2⟩

/-- Witness for C6: one positive-affinity edge joins clusters 0 and 1. -/
theorem c6_metrics_grouping_unionfind_witness :
    (metricsGrouping [(0, 1)] (([0], [1]) : List ℚ × List ℚ) 2).getD 0 0 =
      (metricsGrouping [(0, 1)] (([0], [1]) : List ℚ × List ℚ) 2).getD 1 0 :=
  (c6_metrics_grouping_unionfind [(0, 1)] (([0], [1]) : List ℚ × List ℚ)
      2).2.2 (0, 1) ((1 : ℚ) - 0) (by simp [feOf]) (by norm_num)
    (by decide) (by decide)

/-- The data `FullChain.forward` (full_chain_5.py) works with once the
upstream networks have run: per-batch point counts
(`_, counts = torch.unique(input[0][:,3], return_counts=True)`, line 136 —
the `vids`/`voxel_inds` bookkeeping of the source assumes the points are
ordered by batch id), the per-point semantic labels
(`semantic_labels = torch.argmax(result['segmentation'][0], dim=1)`,
line 102), and the fragments returned by the DBSCAN fragmenter (line 104),
each a list of global point indices. -/
structure ChainInput where
  counts : List ℕ
  labels : ℕ → ℕ
  fragments : List (List ℕ)

/-- Total number of input points. -/
def nPoints (inp : ChainInput) : ℕ := inp.counts.sum

/-- Fragment `i` (out of range yields `[]`, which never occurs in use). -/
def fragAt (inp : ChainInput) (i : ℕ) : List ℕ := inp.fragments.getD i []

/-- Batch ids `frag_batch_ids = get_cluster_batch(input[0], fragments)` (line 105;
the helper is not under src/): the batch id of a fragment's constituent
points — every fragment lies within a single batch element, so we read the
first point's batch id. -/
def fragBatch (inp : ChainInput) (i : ℕ) : ℕ :=
  batchOf inp.counts ((fragAt inp i).headD 0)

/-- Majority: `vals, cnts = t.unique(return_counts=True)` followed by
`vals[torch.argmax(cnts)]` (line 110): `unique` returns the distinct
values sorted ascending, and `argmax` picks the first maximal count. -/
def majorityLabel (xs : List ℕ) : ℕ :=
  match xs.dedup.mergeSort (fun a b => decide (a ≤ b)) with
  | [] => 0
  | v :: vs =>
      vs.foldl (fun best w => if xs.count best < xs.count w then w else best) v

/-- Class `frag_seg[i]` (lines 106-110): the semantic class of fragment `i`. -/
def fragSeg (inp : ChainInput) (i : ℕ) : ℕ :=
  majorityLabel ((fragAt inp i).map inp.labels)

/-- Lines 108-109 and 186-187:
`vals, cnts = semantic_labels[f].unique(return_counts=True);
assert len(vals) == 1`. -/
def semAssertOk (labels : ℕ → ℕ) (f : List ℕ) : Bool :=
  (f.map labels).dedup.length == 1

/-- Mask `em_mask = np.where(frag_seg == 0)[0]` (line 113): positions of the
shower-class fragments, in order. -/
def emMask (inp : ChainInput) : List ℕ :=
  (List.range inp.fragments.length).filter (fun i => fragSeg inp i = 0)

/-- The em fragments belonging to batch element `b`, as global fragment
indices (`bcids[b]` over the em fragments, line 139). -/
def emIdxB (inp : ChainInput) (b : ℕ) : List ℕ :=
  (emMask inp).filter (fun i => fragBatch inp i = b)

/-- List `frags[b]` (line 145): the em fragments of batch `b` with every global
point index translated to its batch-local id through `vids`. -/
def fragsB (inp : ChainInput) (b : ℕ) : List (List ℕ) :=
  (emIdxB inp b).map (fun i => (fragAt inp i).map (vid inp.counts))

/-- The em fragments of batch `b` kept in global point indices. -/
def emFragsB (inp : ChainInput) (b : ℕ) : List (List ℕ) :=
  (emIdxB inp b).map (fragAt inp)

/-- Groups `np.unique(group_ids[b])` (line 170): the sorted distinct group ids
assigned to batch `b`'s em fragments; `g b k` is the group id the fragment
GNN stage assigned to the `k`-th em fragment of batch `b` (the claim
quantifies over every such assignment). -/
def showerGroupIds (inp : ChainInput) (g : ℕ → ℕ → ℕ) (b : ℕ) : List ℕ :=
  (((List.range (fragsB inp b).length).map (g b)).dedup).mergeSort
    (fun x y => decide (x ≤ y))

/-- Lines 166-174: one particle per distinct group id of batch `b`; the
particle is `voxel_inds[np.concatenate(frags[b][group_mask])]`, i.e. the
concatenation of the member fragments' local point ids mapped back to
global indices. -/
def showerParticles (inp : ChainInput) (g : ℕ → ℕ → ℕ) (b : ℕ) :
    List (List ℕ) :=
  (showerGroupIds inp g b).map (fun gid =>
    (((List.range (fragsB inp b).length).filter (fun k => g b k = gid)).flatMap
      (fun k => (fragsB inp b).getD k [])).map (voxelInd inp.counts b))

/-- Lines 176-178: `mask = (frag_batch_ids == b) & (frag_seg != 0);
particles.extend(fragments[mask])` — non-shower fragments of batch `b`
pass through unchanged. -/
def passThroughParticles (inp : ChainInput) (b : ℕ) : List (List ℕ) :=
  ((List.range inp.fragments.length).filter
    (fun i => fragBatch inp i = b ∧ fragSeg inp i ≠ 0)).map (fragAt inp)

/-- Lines 164-181: the assembled particle list, per batch element the
shower-group particles followed by the pass-through fragments. -/
def particlesOf (inp : ChainInput) (g : ℕ → ℕ → ℕ) : List (List ℕ) :=
  (List.range inp.counts.length).flatMap
    (fun b => showerParticles inp g b ++ passThroughParticles inp b)

/-- Forward of `FullChain` restricted to its observable assertion behaviour
(lines 106-110 assert every fragment is semantically homogeneous, lines
184-188 assert the same for every assembled particle; an assertion failure
aborts the forward pass). -/
def fullChainForward (inp : ChainInput) (g : ℕ → ℕ → ℕ) :
    Except Unit (List (List ℕ)) :=
  if inp.fragments.all (fun f => semAssertOk inp.labels f) then
    if (particlesOf inp g).all (fun p => semAssertOk inp.labels p) then
      Except.ok (particlesOf inp g)
    else Except.error ()
  else Except.error ()

/-- The fragmenter contract from the spec (§8, Partition exhaustiveness;
§3, every point in exactly one fragment, each fragment within one batch
element): fragments are nonempty, have no duplicate points, partition the
input point indices `0..nPoints-1`, and lie within single batch elements. -/
structure FragmentsPartition (inp : ChainInput) : Prop where
  nonempty : ∀ f ∈ inp.fragments, f ≠ []
  nodup : inp.fragments.flatten.Nodup
  mem_lt : ∀ x ∈ inp.fragments.flatten, x < nPoints inp
  lt_mem : ∀ x < nPoints inp, x ∈ inp.fragments.flatten
  same_batch : ∀ f ∈ inp.fragments, ∀ x ∈ f,
    batchOf inp.counts x = batchOf inp.counts (f.headD 0)

theorem sum_map_zero {α : Type} (l : List α) (f : α → ℕ)
    (h : ∀ x ∈ l, f x = 0) : (l.map f).sum = 0 := by
  induction l with
  | nil => rfl
  | cons a l ih =>
      simp only [List.map_cons, List.sum_cons]
      rw [h a (List.mem_cons_self _ _), ih fun x hx => h x (List.mem_cons_of_mem _ hx)]

theorem sum_map_filter {α : Type} (l : List α) (q : α → Bool) (f : α → ℕ) :
    ((l.filter q).map f).sum = (l.map (fun a => if q a then f a else 0)).sum := by
  induction l with
  | nil => rfl
  | cons a l ih =>
      by_cases h : q a
      · simp [List.filter_cons, h, ih]
      · simp [List.filter_cons, h, ih]

theorem sum_map_single {α : Type} [DecidableEq α] (l : List α) (b : α)
    (c : ℕ) (hnd : l.Nodup) (hb : b ∈ l) :
    (l.map (fun x => if x = b then c else 0)).sum = c := by
  induction l with
  | nil => cases hb
  | cons a l ih =>
      obtain ⟨hna, hndl⟩ := List.nodup_cons.mp hnd
      rcases List.mem_cons.mp hb with rfl | hmem
      · have hz : (List.map (fun x => if x = b then c else 0) l).sum = 0 :=
          sum_map_zero l _ fun x hx => by
            have hxb : x ≠ b := fun he => hna (he ▸ hx)
            simp [hxb]
        simp [hz]
      · have hab : a ≠ b := fun he => hna (he ▸ hmem)
        simp only [List.map_cons, List.sum_cons, if_neg hab, Nat.zero_add]
        exact ih hndl hmem

theorem sum_map_swap {α β : Type} (l1 : List α) (l2 : List β) (h : α → β → ℕ) :
    (l1.map (fun a => (l2.map (h a)).sum)).sum =
      (l2.map (fun b => (l1.map (fun a => h a b)).sum)).sum := by
  induction l1 with
  | nil =>
      simp only [List.map_nil, List.sum_nil]
      rw [sum_map_zero l2 _ fun b _ => rfl]
  | cons a l ih =>
      simp only [List.map_cons, List.sum_cons, ih]
      rw [← List.sum_map_add]

theorem range_map_getD {α : Type} (l : List α) (d : α) :
    (List.range l.length).map (fun i => l.getD i d) = l := by
  induction l with
  | nil => rfl
  | cons a l ih =>
      rw [List.length_cons, List.range_succ_eq_map, List.map_cons,
        List.map_map]
      have hcomp : ((fun i => (a :: l).getD i d) ∘ Nat.succ) =
          fun i => l.getD i d := rfl
      rw [hcomp, ih]
      rfl

theorem count_flatMap {α : Type} (l : List α) (f : α → List ℕ) (x : ℕ) :
    List.count x (l.flatMap f) = (l.map (fun a => List.count x (f a))).sum := by
  induction l with
  | nil => rfl
  | cons a l ih =>
      simp only [List.flatMap_cons, List.map_cons, List.sum_cons,
        List.count_append, ih]

theorem sum_map_flatMap {α β : Type} (l : List α) (f : α → List β)
    (h : β → ℕ) :
    ((l.flatMap f).map h).sum = (l.map (fun a => ((f a).map h).sum)).sum := by
  induction l with
  | nil => rfl
  | cons a l ih =>
      simp only [List.flatMap_cons, List.map_append, List.sum_append,
        List.map_cons, List.sum_cons, ih]

theorem countP_eq_one_of_sum_counts_one (x : ℕ) :
    ∀ (L : List (List ℕ)), (L.map (List.count x)).sum = 1 →
      L.countP (fun p => decide (x ∈ p)) = 1 := by
  intro L
  induction L with
  | nil => intro h; cases h
  | cons p L ih =>
      intro h
      simp only [List.map_cons, List.sum_cons] at h
      rw [List.countP_cons]
      by_cases hx : x ∈ p
      · have hpos : 0 < List.count x p := List.count_pos_iff.mpr hx
        have hcnt : List.count x p = 1 ∧ (L.map (List.count x)).sum = 0 := by
          omega
        have hz : L.countP (fun p => decide (x ∈ p)) = 0 := by
          rw [List.countP_eq_zero]
          intro q hq
          have : List.count x q = 0 :=
            (List.sum_eq_zero_iff.mp hcnt.2) _ (List.mem_map_of_mem _ hq)
          simp [List.count_eq_zero.mp this]
        simp [hz, hx]
      · have : List.count x p = 0 := List.count_eq_zero.mpr hx
        rw [this, Nat.zero_add] at h
        simp [hx, ih h]

theorem headD_mem {α : Type} (l : List α) (d : α) (h : l ≠ []) :
    l.headD d ∈ l := by
  cases l with
  | nil => exact absurd rfl h
  | cons a l => simp

theorem fragAt_mem (inp : ChainInput) (i : ℕ)
    (h : i < inp.fragments.length) : fragAt inp i ∈ inp.fragments := by
  rw [fragAt, List.getD_eq_getElem _ _ h]
  exact List.getElem_mem h

theorem emIdxB_spec (inp : ChainInput) (b i : ℕ) (h : i ∈ emIdxB inp b) :
    i < inp.fragments.length ∧ fragSeg inp i = 0 ∧ fragBatch inp i = b := by
  obtain ⟨h1, h2⟩ := List.mem_filter.mp h
  obtain ⟨h3, h4⟩ := List.mem_filter.mp h1
  exact ⟨List.mem_range.mp h3, by simpa using h4, by simpa using h2⟩

/-- The `voxel_inds[vids[·]]` round trip on a whole fragment of batch `b`. -/
theorem roundtrip_frag (inp : ChainInput) (hp : FragmentsPartition inp)
    (b i : ℕ) (hi : i < inp.fragments.length) (hb : fragBatch inp i = b) :
    ((fragAt inp i).map (vid inp.counts)).map (voxelInd inp.counts b) =
      fragAt inp i := by
  rw [List.map_map]
  have hmem := fragAt_mem inp i hi
  have hpt : ∀ x ∈ fragAt inp i,
      (voxelInd inp.counts b ∘ vid inp.counts) x = id x := by
    intro x hx
    have hbx : batchOf inp.counts x = b := by
      have := hp.same_batch _ hmem x hx
      rw [this]
      exact hb
    simp only [Function.comp_apply, id]
    rw [← hbx]
    exact voxelInd_vid inp.counts x
  exact (List.map_congr_left hpt).trans (List.map_id _)

theorem length_fragsB (inp : ChainInput) (b : ℕ) :
    (fragsB inp b).length = (emIdxB inp b).length := by
  simp [fragsB]

theorem length_emFragsB (inp : ChainInput) (b : ℕ) :
    (emFragsB inp b).length = (emIdxB inp b).length := by
  simp [emFragsB]

theorem fragsB_getD_roundtrip (inp : ChainInput) (hp : FragmentsPartition inp)
    (b k : ℕ) :
    ((fragsB inp b).getD k []).map (voxelInd inp.counts b) =
      (emFragsB inp b).getD k [] := by
  by_cases hk : k < (emIdxB inp b).length
  · have hkf : k < (fragsB inp b).length := by rwa [length_fragsB]
    have hke : k < (emFragsB inp b).length := by rwa [length_emFragsB]
    rw [List.getD_eq_getElem _ _ hkf, List.getD_eq_getElem _ _ hke]
    simp only [fragsB, emFragsB, List.getElem_map]
    have hmem : (emIdxB inp b)[k] ∈ emIdxB inp b := List.getElem_mem _
    obtain ⟨hi, -, hb'⟩ := emIdxB_spec inp b _ hmem
    exact roundtrip_frag inp hp b _ hi hb'
  · have hkf : (fragsB inp b).length ≤ k := by
      rw [length_fragsB]; omega
    have hke : (emFragsB inp b).length ≤ k := by
      rw [length_emFragsB]; omega
    rw [List.getD_eq_default _ _ hkf, List.getD_eq_default _ _ hke]
    rfl

/-- The shower particles of batch `b` contain each point exactly as often
as the em fragments of batch `b` themselves do: the group ids partition
the em fragments of the batch. -/
theorem count_shower (inp : ChainInput) (hp : FragmentsPartition inp)
    (g : ℕ → ℕ → ℕ) (b x : ℕ) :
    ((showerParticles inp g b).map (List.count x)).sum =
      ((emIdxB inp b).map (fun i => List.count x (fragAt inp i))).sum := by
  rw [showerParticles, List.map_map]
  have hElem : ∀ gid ∈ showerGroupIds inp g b,
      (List.count x ∘ fun gid =>
        (((List.range (fragsB inp b).length).filter
            (fun k => g b k = gid)).flatMap
          (fun k => (fragsB inp b).getD k [])).map (voxelInd inp.counts b)) gid
      = ((List.range (fragsB inp b).length).map
          (fun k => if g b k = gid then
            List.count x ((emFragsB inp b).getD k []) else 0)).sum := by
    intro gid _
    simp only [Function.comp_apply]
    rw [List.map_flatMap]
    rw [List.flatMap_congr
      (fun k _ => fragsB_getD_roundtrip inp hp b k)]
    rw [count_flatMap, sum_map_filter]
    refine congrArg List.sum (List.map_congr_left ?_)
    intro k _
    by_cases h : g b k = gid <;> simp [h]
  rw [List.map_congr_left hElem]
  rw [sum_map_swap]
  have hnodup : (showerGroupIds inp g b).Nodup :=
    ((List.mergeSort_perm _ _).symm).nodup (List.nodup_dedup _)
  have hIn : ∀ k ∈ List.range (fragsB inp b).length,
      ((showerGroupIds inp g b).map
        (fun gid => if g b k = gid then
          List.count x ((emFragsB inp b).getD k []) else 0)).sum =
        List.count x ((emFragsB inp b).getD k []) := by
    intro k hk
    have hcong : ∀ gid ∈ showerGroupIds inp g b,
        (if g b k = gid then
          List.count x ((emFragsB inp b).getD k []) else 0) =
        (if gid = g b k then
          List.count x ((emFragsB inp b).getD k []) else 0) := by
      intro gid _
      by_cases hgk : g b k = gid
      · rw [if_pos hgk, if_pos hgk.symm]
      · rw [if_neg hgk, if_neg (fun he => hgk he.symm)]
    rw [List.map_congr_left hcong]
    refine sum_map_single _ _ _ hnodup ?_
    rw [showerGroupIds, List.mem_mergeSort, List.mem_dedup]
    exact List.mem_map_of_mem (g b) hk
  rw [List.map_congr_left hIn]
  have hlen : (fragsB inp b).length = (emFragsB inp b).length := by
    rw [length_fragsB, length_emFragsB]
  rw [hlen]
  have hgd : (List.range (emFragsB inp b).length).map
      (fun k => List.count x ((emFragsB inp b).getD k [])) =
      ((List.range (emFragsB inp b).length).map
        (fun k => (emFragsB inp b).getD k [])).map (List.count x) := by
    rw [List.map_map]
    rfl
  rw [hgd, range_map_getD, emFragsB, List.map_map]
  rfl

theorem fragBatch_lt (inp : ChainInput) (hp : FragmentsPartition inp)
    (i : ℕ) (hi : i < inp.fragments.length) :
    fragBatch inp i < inp.counts.length := by
  have hfmem := fragAt_mem inp i hi
  have hne := hp.nonempty _ hfmem
  have hhead : (fragAt inp i).headD 0 ∈ fragAt inp i := headD_mem _ _ hne
  have hflat : (fragAt inp i).headD 0 ∈ inp.fragments.flatten :=
    List.mem_flatten.mpr ⟨_, hfmem, hhead⟩
  exact batchOf_lt _ _ (hp.mem_lt _ hflat)

/-- Every point occurs in the assembled particle list exactly as often as
in the fragment list: assembly only regroups fragments. -/
theorem count_particlesOf (inp : ChainInput) (hp : FragmentsPartition inp)
    (g : ℕ → ℕ → ℕ) (x : ℕ) :
    List.count x (particlesOf inp g).flatten =
      List.count x inp.fragments.flatten := by
  rw [List.count_flatten, particlesOf, sum_map_flatMap]
  have hper : ∀ b ∈ List.range inp.counts.length,
      (((showerParticles inp g b ++ passThroughParticles inp b).map
        (List.count x)).sum) =
      ((List.range inp.fragments.length).map
        (fun i => if fragBatch inp i = b
          then List.count x (fragAt inp i) else 0)).sum := by
    intro b _
    rw [List.map_append, List.sum_append, count_shower inp hp g b x]
    have hemf : emIdxB inp b = (List.range inp.fragments.length).filter
        (fun i => decide (fragBatch inp i = b) &&
          decide (fragSeg inp i = 0)) := by
      rw [emIdxB, emMask, List.filter_filter]
    rw [hemf, sum_map_filter]
    rw [passThroughParticles, List.map_map, sum_map_filter]
    rw [← List.sum_map_add]
    refine congrArg List.sum (List.map_congr_left ?_)
    intro i _
    by_cases hbx : fragBatch inp i = b <;>
      by_cases hsx : fragSeg inp i = 0 <;> simp [hbx, hsx]
  rw [List.map_congr_left hper, sum_map_swap]
  have hin : ∀ i ∈ List.range inp.fragments.length,
      ((List.range inp.counts.length).map
        (fun b => if fragBatch inp i = b
          then List.count x (fragAt inp i) else 0)).sum =
        List.count x (fragAt inp i) := by
    intro i hi
    have hcong : ∀ b ∈ List.range inp.counts.length,
        (if fragBatch inp i = b then List.count x (fragAt inp i) else 0) =
        (if b = fragBatch inp i then List.count x (fragAt inp i) else 0) := by
      intro b _
      by_cases hbb : fragBatch inp i = b
      · rw [if_pos hbb, if_pos hbb.symm]
      · rw [if_neg hbb, if_neg fun he => hbb he.symm]
    rw [List.map_congr_left hcong]
    exact sum_map_single _ _ _ (List.nodup_range _)
      (List.mem_range.mpr (fragBatch_lt inp hp i (List.mem_range.mp hi)))
  rw [List.map_congr_left hin, List.count_flatten]
  have hfin : (List.range inp.fragments.length).map
      (fun i => List.count x (fragAt inp i)) =
      inp.fragments.map (List.count x) := by
    have h1 : (List.range inp.fragments.length).map
        (fun i => List.count x (fragAt inp i)) =
        ((List.range inp.fragments.length).map
          (fun i => inp.fragments.getD i [])).map (List.count x) := by
      rw [List.map_map]; rfl
    rw [h1, range_map_getD]
  rw [hfin]

/-- C1: for every input point cloud whose fragments satisfy the
fragmenter's partition contract and every grouping produced by the
fragment GNN stage, the particle list built by `FullChain.forward`
(shower-group particles plus pass-through non-shower fragments) is an
exhaustive, non-overlapping partition of the input point indices: every
point index appears in exactly one particle's point set. -/
theorem c1_particles_partition (inp : ChainInput) (g : ℕ → ℕ → ℕ)
    (hp : FragmentsPartition inp) :
    ∀ x < nPoints inp,
      (particlesOf inp g).countP (fun p => decide (x ∈ p)) = 1 := by
  intro x hx
  have h1 : List.count x inp.fragments.flatten = 1 :=
    List.count_eq_one_of_mem hp.nodup (hp.lt_mem x hx)
  have h2 := count_particlesOf inp hp g x
  rw [h1, List.count_flatten] at h2
  exact countP_eq_one_of_sum_counts_one x _ h2

/-- Witness for C1: two singleton shower fragments in one batch element,
grouped together; point 0 lies in exactly one particle. -/
theorem c1_particles_partition_witness :
    (particlesOf ⟨[2], fun _ => 0, [[0], [1]]⟩ (fun _ _ => 0)).countP
      (fun p => decide (0 ∈ p)) = 1 :=
  c1_particles_partition ⟨[2], fun _ => 0, [[0], [1]]⟩ (fun _ _ => 0)
    ⟨by decide, by decide, by decide, by decide, by decide⟩ 0 (by decide)

theorem showerParticle_ne_nil (inp : ChainInput)
    (hne : ∀ f ∈ inp.fragments, f ≠ []) (g : ℕ → ℕ → ℕ) (b : ℕ) :
    ∀ p ∈ showerParticles inp g b, p ≠ [] := by
  intro p hp
  rw [showerParticles] at hp
  obtain ⟨gid, hgid, rfl⟩ := List.mem_map.mp hp
  have hgid' : gid ∈ (List.range (fragsB inp b).length).map (g b) := by
    rw [showerGroupIds] at hgid
    exact List.mem_dedup.mp (List.mem_mergeSort.mp hgid)
  obtain ⟨k, hk, hgk⟩ := List.mem_map.mp hgid'
  have hkr : k < (fragsB inp b).length := List.mem_range.mp hk
  have hkE : k < (emIdxB inp b).length := by rwa [length_fragsB] at hkr
  have hgetD : (fragsB inp b).getD k [] =
      (fragAt inp (emIdxB inp b)[k]).map (vid inp.counts) := by
    rw [fragsB, List.getD_eq_getElem _ _ (by simpa using hkE),
      List.getElem_map]
  have hfne : (fragsB inp b).getD k [] ≠ [] := by
    rw [hgetD]
    rw [Ne, List.map_eq_nil_iff]
    obtain ⟨hi, -, -⟩ := emIdxB_spec inp b _ (List.getElem_mem hkE)
    exact hne _ (fragAt_mem inp _ hi)
  have hy : ((fragsB inp b).getD k []).headD 0 ∈ (fragsB inp b).getD k [] :=
    headD_mem _ _ hfne
  have hkf : k ∈ (List.range (fragsB inp b).length).filter
      (fun k => g b k = gid) :=
    List.mem_filter.mpr ⟨hk, by simpa using hgk⟩
  have hmem : voxelInd inp.counts b (((fragsB inp b).getD k []).headD 0) ∈
      (((List.range (fragsB inp b).length).filter
        (fun k => g b k = gid)).flatMap
        (fun k => (fragsB inp b).getD k [])).map (voxelInd inp.counts b) :=
    List.mem_map_of_mem _ (List.mem_flatMap.mpr ⟨k, hkf, hy⟩)
  exact List.ne_nil_of_mem hmem

theorem passThrough_ne_nil (inp : ChainInput)
    (hne : ∀ f ∈ inp.fragments, f ≠ []) (b : ℕ) :
    ∀ p ∈ passThroughParticles inp b, p ≠ [] := by
  intro p hp
  obtain ⟨i, hi, rfl⟩ := List.mem_map.mp hp
  obtain ⟨hir, -⟩ := List.mem_filter.mp hi
  exact hne _ (fragAt_mem inp i (List.mem_range.mp hir))

theorem particles_ne_nil (inp : ChainInput)
    (hne : ∀ f ∈ inp.fragments, f ≠ []) (g : ℕ → ℕ → ℕ) :
    ∀ p ∈ particlesOf inp g, p ≠ [] := by
  intro p hp
  rw [particlesOf] at hp
  obtain ⟨b, -, hbp⟩ := List.mem_flatMap.mp hp
  rcases List.mem_append.mp hbp with h | h
  · exact showerParticle_ne_nil inp hne g b p h
  · exact passThrough_ne_nil inp hne b p h

/-- For a nonempty index set, `assert len(vals) == 1` fails exactly when
two of its points carry different semantic labels. -/
theorem semAssertOk_false_iff (labels : ℕ → ℕ) (l : List ℕ) (h : l ≠ []) :
    semAssertOk labels l = false ↔
      ∃ a ∈ l, ∃ b ∈ l, labels a ≠ labels b := by
  unfold semAssertOk
  rw [beq_eq_false_iff_ne]
  constructor
  · intro hlen
    have hne0 : (l.map labels).dedup ≠ [] := by
      intro hnil
      rw [List.dedup_eq_nil] at hnil
      exact h (List.map_eq_nil_iff.mp hnil)
    rcases hd : (l.map labels).dedup with - | ⟨c1, rest⟩
    · exact absurd hd hne0
    · rcases rest with - | ⟨c2, rest2⟩
      · rw [hd] at hlen; simp at hlen
      · have hnd : (c1 :: c2 :: rest2).Nodup := by
          rw [← hd]; exact List.nodup_dedup _
        have h12 : c1 ≠ c2 := by
          intro he
          exact (List.nodup_cons.mp hnd).1
            (by rw [he]; exact List.mem_cons_self _ _)
        have hc1 : c1 ∈ l.map labels := by
          rw [← List.mem_dedup, hd]; exact List.mem_cons_self _ _
        have hc2 : c2 ∈ l.map labels := by
          rw [← List.mem_dedup, hd]
          exact List.mem_cons_of_mem _ (List.mem_cons_self _ _)
        obtain ⟨a, ha, hal⟩ := List.mem_map.mp hc1
        obtain ⟨b2, hb2, hbl⟩ := List.mem_map.mp hc2
        exact ⟨a, ha, b2, hb2, by rw [hal, hbl]; exact h12⟩
  · rintro ⟨a, ha, b2, hb2, hab⟩ hlen
    obtain ⟨c, hc⟩ := List.length_eq_one.mp hlen
    have hca : labels a ∈ (l.map labels).dedup :=
      List.mem_dedup.mpr (List.mem_map_of_mem _ ha)
    have hcb : labels b2 ∈ (l.map labels).dedup :=
      List.mem_dedup.mpr (List.mem_map_of_mem _ hb2)
    rw [hc] at hca hcb
    simp only [List.mem_singleton] at hca hcb
    exact hab (hca.trans hcb.symm)

/-- C2: with nonempty fragments (the fragmenter returns nonempty
clusters), `FullChain.forward` raises its semantic-homogeneity assertion
(lines 109 and 187) if and only if some fragment or some assembled
particle contains two points with different semantic labels; on fully
homogeneous inputs the forward pass does not raise. -/
theorem c2_assert_iff_heterogeneous (inp : ChainInput) (g : ℕ → ℕ → ℕ)
    (hne : ∀ f ∈ inp.fragments, f ≠ []) :
    (fullChainForward inp g).isOk = false ↔
      (∃ f ∈ inp.fragments, ∃ a ∈ f, ∃ b ∈ f,
        inp.labels a ≠ inp.labels b) ∨
      (∃ p ∈ particlesOf inp g, ∃ a ∈ p, ∃ b ∈ p,
        inp.labels a ≠ inp.labels b) := by
  have hfr : (inp.fragments.all (fun f => semAssertOk inp.labels f) = true) ↔
      ¬ ∃ f ∈ inp.fragments, ∃ a ∈ f, ∃ b2 ∈ f,
        inp.labels a ≠ inp.labels b2 := by
    rw [List.all_eq_true]
    constructor
    · rintro hall ⟨f, hf, a, ha, b2, hb2, hab⟩
      have h1 := hall f hf
      have h2 := (semAssertOk_false_iff inp.labels f (hne f hf)).mpr
        ⟨a, ha, b2, hb2, hab⟩
      rw [h1] at h2
      exact Bool.noConfusion h2
    · intro hno f hf
      cases hbo : semAssertOk inp.labels f with
      | true => rfl
      | false =>
          obtain ⟨a, ha, b2, hb2, hab⟩ :=
            (semAssertOk_false_iff inp.labels f (hne f hf)).mp hbo
          exact absurd ⟨f, hf, a, ha, b2, hb2, hab⟩ hno
  have hpr : ((particlesOf inp g).all
        (fun p => semAssertOk inp.labels p) = true) ↔
      ¬ ∃ p ∈ particlesOf inp g, ∃ a ∈ p, ∃ b2 ∈ p,
        inp.labels a ≠ inp.labels b2 := by
    rw [List.all_eq_true]
    constructor
    · rintro hall ⟨p, hpm, a, ha, b2, hb2, hab⟩
      have h1 := hall p hpm
      have h2 := (semAssertOk_false_iff inp.labels p
        (particles_ne_nil inp hne g p hpm)).mpr ⟨a, ha, b2, hb2, hab⟩
      rw [h1] at h2
      exact Bool.noConfusion h2
    · intro hno p hpm
      cases hbo : semAssertOk inp.labels p with
      | true => rfl
      | false =>
          obtain ⟨a, ha, b2, hb2, hab⟩ := (semAssertOk_false_iff inp.labels p
            (particles_ne_nil inp hne g p hpm)).mp hbo
          exact absurd ⟨p, hpm, a, ha, b2, hb2, hab⟩ hno
  unfold fullChainForward
  by_cases h1 : inp.fragments.all (fun f => semAssertOk inp.labels f) = true
  · by_cases h2 : (particlesOf inp g).all
        (fun p => semAssertOk inp.labels p) = true
    · rw [if_pos h1, if_pos h2]
      constructor
      · intro hco
        exact Bool.noConfusion hco
      · rintro (hA | hB)
        · exact absurd hA (hfr.mp h1)
        · exact absurd hB (hpr.mp h2)
    · rw [if_pos h1, if_neg h2]
      constructor
      · intro _
        exact Or.inr (not_not.mp ((not_congr hpr).mp h2))
      · intro _
        rfl
  · rw [if_neg h1]
    constructor
    · intro _
      exact Or.inl (not_not.mp ((not_congr hfr).mp h1))
    · intro _
      rfl

/-- Witness for C2 at a homogeneous two-fragment input: the forward pass
does not raise and, consistently, no heterogeneous fragment or particle
exists. -/
theorem c2_assert_iff_heterogeneous_witness :
    ((fullChainForward ⟨[2], fun _ => 0, [[0], [1]]⟩
        (fun _ _ => 0)).isOk = false ↔
      (∃ f ∈ ([[0], [1]] : List (List ℕ)), ∃ a ∈ f, ∃ b ∈ f,
        (fun _ : ℕ => (0 : ℕ)) a ≠ (fun _ : ℕ => (0 : ℕ)) b) ∨
      (∃ p ∈ particlesOf ⟨[2], fun _ => 0, [[0], [1]]⟩ (fun _ _ => 0),
        ∃ a ∈ p, ∃ b ∈ p,
        (fun _ : ℕ => (0 : ℕ)) a ≠ (fun _ : ℕ => (0 : ℕ)) b)) :=
  c2_assert_iff_heterogeneous ⟨[2], fun _ => 0, [[0], [1]]⟩ (fun _ _ => 0)
    (by decide)

end MlReco
